import Mathlib

/-!
Verification of the blobwar move-search core (src/strategy/minmax.rs and
src/strategy/alphabeta.rs) against its natural-language specification.

The game-state collaborator (`Configuration` from the blobwar crate) is
external to the search core.  It is embedded as a finite game tree: each
node carries `current_player` (a two-valued tag, `Bool`), `value` (the
heuristic score, an `i8` represented as an `Int` carried together with the
range predicate `InRangeB` where a claim needs the machine-width bound),
and the list of `(movement, play(movement))` pairs.  Bundling each legal
movement with the position it leads to is exactly the information the
engines consume: every engine iterates `node.movements()` and immediately
calls `node.play(&child)`, and `movements().next().is_none()` holds iff
the bundled list is empty.

Machine-integer conventions: scores are `i8` in the source; they are
modelled as `Int`, with `i8neg` as two's-complement `i8` negation
(`-(-128)` wraps to `-128`, release-mode semantics) and the constants
`i8::MIN = -128`, `i8::MAX = 127` written literally.  The search depth is
`u8`; the checked decrement `self.0 - 1` in `compute_next_move` underflows
at `0`, which is modelled by an `Option`-valued result (`none` = panic).
-/

/-- Movement is an opaque, copyable, equality-comparable move identifier
(the engines never inspect its structure). -/
abbrev Movement : Type := Nat

/-- A blobwar `Configuration`: the game position at one search-tree node.
`children` bundles each legal movement with the position `play` yields for
it; `movements()` is the list of first components. -/
inductive Configuration : Type where
  | node (current_player : Bool) (value : Int)
      (children : List (Movement × Configuration))
deriving Repr

/-- `Configuration::current_player`: whose turn it is at this node. -/
def Configuration.current_player : Configuration → Bool
  | .node p _ _ => p

/-- `Configuration::value()`: the heuristic/terminal score of the node. -/
def Configuration.value : Configuration → Int
  | .node _ v _ => v

/-- The bundled `(movement, play result)` pairs of the node. -/
def Configuration.children : Configuration → List (Movement × Configuration)
  | .node _ _ c => c

/-- `Configuration::movements()`: the legal moves of the node, in
enumeration order. -/
def Configuration.movements (c : Configuration) : List Movement :=
  c.children.map Prod.fst

/-- Two's-complement negation of an `i8` value: `-(-128)` wraps back to
`-128`; every other value is negated exactly. -/
def i8neg (v : Int) : Int := if v = -128 then -128 else -v

/-- The base case shared verbatim by every engine:
`if maximizing_player == node.current_player { -node.value() } else { node.value() }`. -/
def base_score (node : Configuration) (maximizing_player : Bool) : Int :=
  if maximizing_player == node.current_player then i8neg node.value
  else node.value

/-- Rust `Iterator::max_by_key` on the nonempty list `x :: xs`: of several
equally maximum elements the LAST one is returned, hence the fold replaces
the accumulator whenever the new key is greater or equal. -/
def max_by_key_last {α : Type} (f : α → Int) (x : α) (xs : List α) : α :=
  xs.foldl (fun acc y => if f acc ≤ f y then y else acc) x

/-- Rust `Iterator::min_by_key` on the nonempty list `x :: xs`: of several
equally minimum elements the FIRST one is returned, hence the fold replaces
the accumulator only on a strictly smaller key. -/
def min_by_key_first {α : Type} (f : α → Int) (x : α) (xs : List α) : α :=
  xs.foldl (fun acc y => if f y < f acc then y else acc) x

/-- `minmax_iter` from src/strategy/minmax.rs.  Its first statement is an
`if`/`else` in which BOTH branches `return`, so the loop written below that
statement in the source is unreachable: the function always returns the
base-case pair, whatever the depth. -/
def minmax_iter (node : Configuration) (_depth : Nat)
    (maximizing_player : Bool) : Option Movement × Int :=
  if maximizing_player == node.current_player then (none, i8neg node.value)
  else (none, node.value)

/-- `minmax_fonc` from src/strategy/minmax.rs.  Base case on `depth == 0 ||
node.movements().next().is_none()`; otherwise map every movement to the
recursive score at `depth - 1` and pick `max_by_key` (current player equals
the maximizing player) or `min_by_key` (otherwise).  The head/tail split of
the children makes explicit that the Rust `.unwrap()` cannot panic: the
list is nonempty in this branch. -/
def minmax_fonc : Configuration → Nat → Bool → Option Movement × Int
  | node, 0, maximizing_player => (none, base_score node maximizing_player)
  | node, depth+1, maximizing_player =>
    match node.children with
    | [] => (none, base_score node maximizing_player)
    | c :: cs =>
      if node.current_player == maximizing_player then
        let best := max_by_key_last (fun pr => pr.2)
          (c.1, (minmax_fonc c.2 depth maximizing_player).2)
          (cs.map (fun child =>
            (child.1, (minmax_fonc child.2 depth maximizing_player).2)))
        (some best.1, best.2)
      else
        let best := min_by_key_first (fun pr => pr.2)
          (c.1, (minmax_fonc c.2 depth maximizing_player).2)
          (cs.map (fun child =>
            (child.1, (minmax_fonc child.2 depth maximizing_player).2)))
        (some best.1, best.2)

/-- `minmax_par` from src/strategy/minmax.rs.  The movements are collected
into a `Vec` and evaluated with rayon's `into_par_iter`; rayon's
`max_by_key` documents that of several equally maximum elements the latest
is returned and `min_by_key` that the earliest is returned, exactly as for
the sequential iterator, so the parallel reduction is deterministic and is
embedded as the same nonempty-list fold. -/
def minmax_par : Configuration → Nat → Bool → Option Movement × Int
  | node, 0, maximizing_player => (none, base_score node maximizing_player)
  | node, depth+1, maximizing_player =>
    match node.children with
    | [] => (none, base_score node maximizing_player)
    | c :: cs =>
      if node.current_player == maximizing_player then
        let best := max_by_key_last (fun pr => pr.2)
          (c.1, (minmax_par c.2 depth maximizing_player).2)
          (cs.map (fun child =>
            (child.1, (minmax_par child.2 depth maximizing_player).2)))
        (some best.1, best.2)
      else
        let best := min_by_key_first (fun pr => pr.2)
          (c.1, (minmax_par c.2 depth maximizing_player).2)
          (cs.map (fun child =>
            (child.1, (minmax_par child.2 depth maximizing_player).2)))
        (some best.1, best.2)

/-- The maximizing loop of `alpha_beta` (src/strategy/alphabeta.rs):
`if child_value > alpha { alpha = child_value; best_child = Some(child);
best_value = child_value; } if alpha >= beta { break; }`, started with
`best_value = i8::MIN`, `best_child = None`.  `f` is the recursive
evaluation at `depth - 1`. -/
def abMaxLoop (f : Configuration → Int → Int → Option Movement × Int)
    (beta : Int) :
    List (Movement × Configuration) → Int → Int → Option Movement →
    Option Movement × Int
  | [], _, best_value, best_child => (best_child, best_value)
  | child :: rest, alpha, best_value, best_child =>
    let child_value := (f child.2 alpha beta).2
    let alpha' := if alpha < child_value then child_value else alpha
    let best_value' := if alpha < child_value then child_value else best_value
    let best_child' :=
      if alpha < child_value then some child.1 else best_child
    if beta ≤ alpha' then (best_child', best_value')
    else abMaxLoop f beta rest alpha' best_value' best_child'

/-- The minimizing loop of `alpha_beta`:
`if child_value < beta { beta = child_value; best_child = Some(child);
best_value = child_value; } if alpha >= beta { break; }`, started with
`best_value = i8::MAX`, `best_child = None`. -/
def abMinLoop (f : Configuration → Int → Int → Option Movement × Int)
    (alpha : Int) :
    List (Movement × Configuration) → Int → Int → Option Movement →
    Option Movement × Int
  | [], _, best_value, best_child => (best_child, best_value)
  | child :: rest, beta, best_value, best_child =>
    let child_value := (f child.2 alpha beta).2
    let beta' := if child_value < beta then child_value else beta
    let best_value' := if child_value < beta then child_value else best_value
    let best_child' :=
      if child_value < beta then some child.1 else best_child
    if beta' ≤ alpha then (best_child', best_value')
    else abMinLoop f alpha rest beta' best_value' best_child'

/-- `alpha_beta` from src/strategy/alphabeta.rs: the sequential pruning
form.  Base case as in Min-Max; otherwise the running-bound loops above. -/
def alpha_beta : Configuration → Nat → Int → Int → Bool →
    Option Movement × Int
  | node, 0, _, _, maximizing_player =>
    (none, base_score node maximizing_player)
  | node, depth+1, alpha, beta, maximizing_player =>
    match node.children with
    | [] => (none, base_score node maximizing_player)
    | c :: cs =>
      if maximizing_player == node.current_player then
        abMaxLoop (fun n a b => alpha_beta n depth a b maximizing_player)
          beta (c :: cs) alpha (-128) none
      else
        abMinLoop (fun n a b => alpha_beta n depth a b maximizing_player)
          alpha (c :: cs) beta 127 none

/-- `alpha_beta_fonc` from src/strategy/alphabeta.rs: maps every movement
to `(Some(child), recursive value)` and picks `max_by_key`/`min_by_key`.
The `alpha` and `beta` arguments are passed down but never gate anything.
The head/tail split again replaces the unreachable
`.unwrap_or((None, i8::MIN))`/`.unwrap_or((None, i8::MAX))` on the
nonempty list. -/
def alpha_beta_fonc : Configuration → Nat → Int → Int → Bool →
    Option Movement × Int
  | node, 0, _, _, maximizing_player =>
    (none, base_score node maximizing_player)
  | node, depth+1, alpha, beta, maximizing_player =>
    match node.children with
    | [] => (none, base_score node maximizing_player)
    | c :: cs =>
      if maximizing_player == node.current_player then
        max_by_key_last (fun pr => pr.2)
          ((some c.1 : Option Movement),
            (alpha_beta_fonc c.2 depth alpha beta maximizing_player).2)
          (cs.map (fun child =>
            ((some child.1 : Option Movement),
              (alpha_beta_fonc child.2 depth alpha beta
                maximizing_player).2)))
      else
        min_by_key_first (fun pr => pr.2)
          ((some c.1 : Option Movement),
            (alpha_beta_fonc c.2 depth alpha beta maximizing_player).2)
          (cs.map (fun child =>
            ((some child.1 : Option Movement),
              (alpha_beta_fonc child.2 depth alpha beta
                maximizing_player).2)))

/-- The `map_init` stage of `alpha_beta_par`'s maximizing branch: each item
is mapped to `(Some(child), value)` where `value` is computed with the
task-local `local_alpha` (initialized to `i8::MIN`), which the closure
updates whenever `value > *local_alpha`.  rayon threads the init state
through each contiguous batch of items; it is embedded as the
single-batch, left-to-right threading (the local bounds never gate any
pruning in `alpha_beta_par`, so every batching yields the same values). -/
def abParMapMax (f : Configuration → Int → Int → Option Movement × Int)
    (beta : Int) :
    List (Movement × Configuration) → Int → List (Option Movement × Int)
  | [], _ => []
  | child :: rest, local_alpha =>
    let value := (f child.2 local_alpha beta).2
    let local_alpha' := if local_alpha < value then value else local_alpha
    ((some child.1 : Option Movement), value) ::
      abParMapMax f beta rest local_alpha'

/-- The `map_init` stage of `alpha_beta_par`'s minimizing branch, with the
task-local `local_beta` initialized to `i8::MAX` and updated whenever
`value < *local_beta`; the caller's `alpha` is passed down unchanged. -/
def abParMapMin (f : Configuration → Int → Int → Option Movement × Int)
    (alpha : Int) :
    List (Movement × Configuration) → Int → List (Option Movement × Int)
  | [], _ => []
  | child :: rest, local_beta =>
    let value := (f child.2 alpha local_beta).2
    let local_beta' := if value < local_beta then value else local_beta
    ((some child.1 : Option Movement), value) ::
      abParMapMin f alpha rest local_beta'

/-- `reduce_with(|(child1, value1), (child2, value2)| if value1 > value2 {
(child1, value1) } else { (child2, value2) })`: an associative pick-the-max
with ties going to the later operand, embedded as the left fold rayon's
deterministic reduction is equivalent to. -/
def abParReduceMax : Option Movement × Int → List (Option Movement × Int) →
    Option Movement × Int
  | acc, [] => acc
  | acc, x :: xs => abParReduceMax (if x.2 < acc.2 then acc else x) xs

/-- The minimizing `reduce_with`: pick-the-min with ties going to the later
operand. -/
def abParReduceMin : Option Movement × Int → List (Option Movement × Int) →
    Option Movement × Int
  | acc, [] => acc
  | acc, x :: xs => abParReduceMin (if acc.2 < x.2 then acc else x) xs

/-- `alpha_beta_par` from src/strategy/alphabeta.rs: the parallel form with
task-local (never shared, never pruning) bounds.  The
`.unwrap_or((None, i8::MIN))` / `.unwrap_or((None, i8::MAX))` fallbacks are
kept as the `[]` arms even though the mapped list is nonempty there. -/
def alpha_beta_par : Configuration → Nat → Int → Int → Bool →
    Option Movement × Int
  | node, 0, _, _, maximizing_player =>
    (none, base_score node maximizing_player)
  | node, depth+1, alpha, beta, maximizing_player =>
    match node.children with
    | [] => (none, base_score node maximizing_player)
    | c :: cs =>
      if maximizing_player == node.current_player then
        match abParMapMax
            (fun n a b => alpha_beta_par n depth a b maximizing_player)
            beta (c :: cs) (-128) with
        | [] => (none, -128)
        | x :: xs => abParReduceMax x xs
      else
        match abParMapMin
            (fun n a b => alpha_beta_par n depth a b maximizing_player)
            alpha (c :: cs) 127 with
        | [] => (none, 127)
        | x :: xs => abParReduceMin x xs

/-- `MinMax::compute_next_move`: `minmax_par(state, self.0 - 1,
state.current_player).0`.  The depth field is a `u8`, so the decrement
underflows (checked-arithmetic panic) when the configured depth is `0`;
the panic is modelled as the outer `none`. -/
def MinMax.compute_next_move (n : Nat) (state : Configuration) :
    Option (Option Movement) :=
  if n = 0 then none
  else some (minmax_par state (n - 1) state.current_player).1

/-- `AlphaBeta::compute_next_move`: `alpha_beta_par(state, self.0 - 1,
i8::MAX, i8::MIN, state.current_player).0`, with the initial window
arguments reversed exactly as in the source.  Same `u8` underflow at
configured depth `0`, modelled as the outer `none`. -/
def AlphaBeta.compute_next_move (n : Nat) (state : Configuration) :
    Option (Option Movement) :=
  if n = 0 then none
  else some (alpha_beta_par state (n - 1) 127 (-128) state.current_player).1

/-- The depth sequence of both anytime drivers: `for depth in 1..100`,
i.e. the depths 1 through 99 in increasing order. -/
def AnytimeDepths : List Nat := List.range' 1 99

/-- `min_max_anytime` from src/strategy/minmax.rs.  `AtomicMove::connect()`
lives in the external shmem module; its outcome is the `conn` parameter,
and the `.expect("failed connecting to shmem")` panic on a failed
connection is the propagated `error` (no search, no store).  On success
the result lists, in order, the values passed to `movement.store(...)`:
one `MinMax(depth).compute_next_move(state)` per depth in `1..100`.
The inner `getD none` only unwraps the panic marker, never reached at
depths ≥ 1. -/
def min_max_anytime (conn : Except String Unit) (state : Configuration) :
    Except String (List (Option Movement)) :=
  match conn with
  | Except.error e => Except.error e
  | Except.ok _ =>
    Except.ok (AnytimeDepths.map
      (fun depth => (MinMax.compute_next_move depth state).getD none))

/-- `alpha_beta_anytime` from src/strategy/alphabeta.rs, modelled exactly
like `min_max_anytime` with the AlphaBeta strategy. -/
def alpha_beta_anytime (conn : Except String Unit)
    (state : Configuration) : Except String (List (Option Movement)) :=
  match conn with
  | Except.error e => Except.error e
  | Except.ok _ =>
    Except.ok (AnytimeDepths.map
      (fun depth => (AlphaBeta.compute_next_move depth state).getD none))

/-- All `value()` fields of the tree down to depth `d` lie in the `i8`
range `[-128, 127]` (the invariant the Rust `i8` type guarantees). -/
def InRangeB : Nat → Configuration → Bool
  | 0, .node _ v _ => decide (-128 ≤ v) && decide (v ≤ 127)
  | d+1, .node _ v cs =>
    decide (-128 ≤ v) && decide (v ≤ 127) &&
      cs.all (fun c => InRangeB d c.2)

/-- Concrete terminal position with raw value 7, used as test input. -/
def terminal7 : Configuration := .node true 7 []

/-- Concrete position with exactly one legal move, used as test input. -/
def oneMoveTree : Configuration :=
  .node true 0 [(0, .node false 3 [])]

/-- Concrete one-move position with distinct root and child values, used
as test input. -/
def bugTree : Configuration :=
  .node true 5 [(0, .node false 3 [])]

theorem bool_beq_comm (a b : Bool) : (a == b) = (b == a) := by
  cases a <;> cases b <;> rfl

theorem max_by_key_last_cons {α : Type} (f : α → Int) (x y : α)
    (ys : List α) :
    max_by_key_last f x (y :: ys) =
      max_by_key_last f (if f x ≤ f y then y else x) ys := by
  simp [max_by_key_last]

theorem min_by_key_first_cons {α : Type} (f : α → Int) (x y : α)
    (ys : List α) :
    min_by_key_first f x (y :: ys) =
      min_by_key_first f (if f y < f x then y else x) ys := by
  simp [min_by_key_first]

theorem max_by_key_option_pair :
    ∀ (xs : List (Movement × Int)) (x : Movement × Int),
    max_by_key_last (fun pr : Option Movement × Int => pr.2)
        ((some x.1 : Option Movement), x.2)
        (xs.map (fun pr => ((some pr.1 : Option Movement), pr.2))) =
      ((some (max_by_key_last (fun pr : Movement × Int => pr.2) x xs).1 :
          Option Movement),
        (max_by_key_last (fun pr : Movement × Int => pr.2) x xs).2) := by
  intro xs
  induction xs with
  | nil => intro x; rfl
  | cons y ys ih =>
    intro x
    rw [List.map_cons, max_by_key_last_cons, max_by_key_last_cons]
    by_cases h : x.2 ≤ y.2 <;> simp only [h, if_pos, if_neg, ite_true,
      ite_false, not_false_iff] <;> exact ih _

theorem min_by_key_option_pair :
    ∀ (xs : List (Movement × Int)) (x : Movement × Int),
    min_by_key_first (fun pr : Option Movement × Int => pr.2)
        ((some x.1 : Option Movement), x.2)
        (xs.map (fun pr => ((some pr.1 : Option Movement), pr.2))) =
      ((some (min_by_key_first (fun pr : Movement × Int => pr.2) x xs).1 :
          Option Movement),
        (min_by_key_first (fun pr : Movement × Int => pr.2) x xs).2) := by
  intro xs
  induction xs with
  | nil => intro x; rfl
  | cons y ys ih =>
    intro x
    rw [List.map_cons, min_by_key_first_cons, min_by_key_first_cons]
    by_cases h : y.2 < x.2 <;> simp only [h, if_pos, if_neg, ite_true,
      ite_false, not_false_iff] <;> exact ih _

theorem minmax_par_eq_fonc :
    ∀ (d : Nat) (node : Configuration) (m : Bool),
    minmax_par node d m = minmax_fonc node d m := by
  intro d
  induction d with
  | zero => intro node m; rfl
  | succ d ih =>
    intro node m
    cases node with
    | node p v cs =>
      cases cs with
      | nil => rfl
      | cons c cs' =>
        simp only [minmax_par, minmax_fonc, Configuration.children, ih]

theorem terminal_all_engines :
    ∀ (d : Nat) (node : Configuration) (m : Bool) (alpha beta : Int),
    node.children = [] →
    minmax_fonc node d m = (none, base_score node m) ∧
    minmax_par node d m = (none, base_score node m) ∧
    alpha_beta node d alpha beta m = (none, base_score node m) ∧
    alpha_beta_fonc node d alpha beta m = (none, base_score node m) ∧
    alpha_beta_par node d alpha beta m = (none, base_score node m) := by
  intro d node m alpha beta h
  cases d with
  | zero => exact ⟨rfl, rfl, rfl, rfl, rfl⟩
  | succ d =>
    cases node with
    | node p v cs =>
      simp only [Configuration.children] at h
      subst h
      exact ⟨rfl, rfl, rfl, rfl, rfl⟩

/-- C10: `alpha_beta_fonc` performs no pruning: for every position, depth,
and maximizing-player flag, its result does not depend on the `alpha` and
`beta` arguments at all, and it equals the exact `(move, score)` pair
computed by `minmax_fonc` at the same depth. -/
theorem C10_alpha_beta_fonc_eq_minmax_fonc :
    ∀ (node : Configuration) (d : Nat) (alpha beta : Int) (m : Bool),
    alpha_beta_fonc node d alpha beta m = minmax_fonc node d m := by
  intro node d
  induction d generalizing node with
  | zero => intro alpha beta m; rfl
  | succ d ih =>
    intro alpha beta m
    cases node with
    | node p v cs =>
      cases cs with
      | nil => rfl
      | cons c cs' =>
        simp only [alpha_beta_fonc, minmax_fonc, Configuration.children,
          Configuration.current_player, ih, bool_beq_comm p m]
        cases hm : (m == p) with
        | false =>
          simp only [if_neg, Bool.false_eq_true, not_false_iff, ite_false]
          have hcomp :
              (fun child : Movement × Configuration =>
                ((some child.1 : Option Movement),
                  (minmax_fonc child.2 d m).2)) =
              (fun pr : Movement × Int =>
                ((some pr.1 : Option Movement), pr.2)) ∘
              (fun child : Movement × Configuration =>
                (child.1, (minmax_fonc child.2 d m).2)) := rfl
          rw [hcomp, ← List.map_map]
          exact min_by_key_option_pair
            (cs'.map (fun child => (child.1, (minmax_fonc child.2 d m).2)))
            (c.1, (minmax_fonc c.2 d m).2)
        | true =>
          simp only [ite_true]
          have hcomp :
              (fun child : Movement × Configuration =>
                ((some child.1 : Option Movement),
                  (minmax_fonc child.2 d m).2)) =
              (fun pr : Movement × Int =>
                ((some pr.1 : Option Movement), pr.2)) ∘
              (fun child : Movement × Configuration =>
                (child.1, (minmax_fonc child.2 d m).2)) := rfl
          rw [hcomp, ← List.map_map]
          exact max_by_key_option_pair
            (cs'.map (fun child => (child.1, (minmax_fonc child.2 d m).2)))
            (c.1, (minmax_fonc c.2 d m).2)

/-- C2 counterexample: on the terminal position with raw value 7 and the
node's player EQUAL to the maximizing player, both engines return
`(none, -7)`, not the `(none, 7)` the claim asserts for the matching
case. -/
theorem C2_counterexample :
    minmax_fonc terminal7 3 true = (none, -7) ∧
    alpha_beta terminal7 3 (-128) 127 true = (none, -7) ∧
    ¬ minmax_fonc terminal7 3 true = (none, 7) ∧
    ¬ alpha_beta terminal7 3 (-128) 127 true = (none, 7) := by
  refine ⟨by decide, by decide, by decide, by decide⟩

/-- C2 amended: at a terminal position (zero legal moves) every engine's
recursive evaluation returns `(none, s)` where `s` is the NEGATED raw value
when the node's current player equals the maximizing player fixed at the
root, and the raw value otherwise; with raw value 7 this is `(none, -7)`
for the maximizing player and `(none, 7)` for the non-maximizing player. -/
theorem C2_terminal_score :
    ∀ (d : Nat) (node : Configuration) (m : Bool) (alpha beta : Int),
    node.children = [] →
    minmax_fonc node d m =
      (none, if m == node.current_player then i8neg node.value
             else node.value) ∧
    minmax_par node d m =
      (none, if m == node.current_player then i8neg node.value
             else node.value) ∧
    alpha_beta node d alpha beta m =
      (none, if m == node.current_player then i8neg node.value
             else node.value) ∧
    alpha_beta_fonc node d alpha beta m =
      (none, if m == node.current_player then i8neg node.value
             else node.value) ∧
    alpha_beta_par node d alpha beta m =
      (none, if m == node.current_player then i8neg node.value
             else node.value) := by
  intro d node m alpha beta h
  exact terminal_all_engines d node m alpha beta h

theorem C2_terminal_score_witness :
    (terminal7.children = []) ∧
    minmax_fonc terminal7 3 true = (none, -7) ∧
    minmax_fonc terminal7 3 false = (none, 7) := by
  refine ⟨rfl, ?_, ?_⟩
  · have h := (C2_terminal_score 3 terminal7 true (-128) 127 rfl).1
    simpa [terminal7, Configuration.current_player, Configuration.value,
      i8neg] using h
  · have h := (C2_terminal_score 3 terminal7 false (-128) 127 rfl).1
    simpa [terminal7, Configuration.current_player, Configuration.value,
      i8neg] using h

/-- C4 code bug: `minmax_iter`'s opening `if`/`else` returns in both
branches, so the search loop below it is unreachable and `minmax_iter`
ignores the depth entirely.  At the one-move position `bugTree` with depth
1 it returns the base-case pair `(none, -5)` while `minmax_fonc` and
`minmax_par` agree on the searched result `(some 0, 3)`: the three forms
do not return the same score. -/
theorem C4_minmax_iter_diverges :
    minmax_iter bugTree 1 true = (none, -5) ∧
    minmax_fonc bugTree 1 true = (some 0, 3) ∧
    minmax_par bugTree 1 true = (some 0, 3) ∧
    (minmax_iter bugTree 1 true).2 ≠ (minmax_fonc bugTree 1 true).2 := by
  refine ⟨by decide, by decide, by decide, by decide⟩

/-- C8: calling any engine with depth 0 returns `(none, s)` with `s` the
sign-adjusted score, whatever the position's movement list `cs` is: the
movement list is never consulted at depth 0. -/
theorem C8_depth_zero_no_moves :
    ∀ (p : Bool) (v : Int) (cs : List (Movement × Configuration))
      (m : Bool) (alpha beta : Int),
    minmax_fonc (.node p v cs) 0 m =
      (none, if m == p then i8neg v else v) ∧
    minmax_par (.node p v cs) 0 m =
      (none, if m == p then i8neg v else v) ∧
    minmax_iter (.node p v cs) 0 m =
      (none, if m == p then i8neg v else v) ∧
    alpha_beta (.node p v cs) 0 alpha beta m =
      (none, if m == p then i8neg v else v) ∧
    alpha_beta_fonc (.node p v cs) 0 alpha beta m =
      (none, if m == p then i8neg v else v) ∧
    alpha_beta_par (.node p v cs) 0 alpha beta m =
      (none, if m == p then i8neg v else v) := by
  intro p v cs m alpha beta
  cases m <;> cases p <;>
    simp [minmax_fonc, minmax_par, minmax_iter, alpha_beta,
      alpha_beta_fonc, alpha_beta_par, base_score,
      Configuration.current_player, Configuration.value]

theorem abParMapMax_all_some
    (f : Configuration → Int → Int → Option Movement × Int) (beta : Int) :
    ∀ (l : List (Movement × Configuration)) (la : Int),
    ∀ y ∈ abParMapMax f beta l la, y.1.isSome := by
  intro l
  induction l with
  | nil => intro la y hy; simp [abParMapMax] at hy
  | cons c rest ih =>
    intro la y hy
    simp only [abParMapMax, List.mem_cons] at hy
    rcases hy with h | h
    · subst h; rfl
    · exact ih _ y h

theorem abParMapMin_all_some
    (f : Configuration → Int → Int → Option Movement × Int) (alpha : Int) :
    ∀ (l : List (Movement × Configuration)) (lb : Int),
    ∀ y ∈ abParMapMin f alpha l lb, y.1.isSome := by
  intro l
  induction l with
  | nil => intro lb y hy; simp [abParMapMin] at hy
  | cons c rest ih =>
    intro lb y hy
    simp only [abParMapMin, List.mem_cons] at hy
    rcases hy with h | h
    · subst h; rfl
    · exact ih _ y h

theorem abParReduceMax_isSome :
    ∀ (xs : List (Option Movement × Int)) (acc : Option Movement × Int),
    acc.1.isSome → (∀ y ∈ xs, y.1.isSome) →
    (abParReduceMax acc xs).1.isSome := by
  intro xs
  induction xs with
  | nil => intro acc h _; exact h
  | cons x xs' ih =>
    intro acc hacc hall
    simp only [abParReduceMax]
    by_cases h : x.2 < acc.2
    · simp only [h, ite_true]
      exact ih acc hacc (fun y hy => hall y (List.mem_cons_of_mem _ hy))
    · simp only [h, ite_false]
      exact ih x (hall x (List.mem_cons_self x xs')) (fun y hy =>
        hall y (List.mem_cons_of_mem _ hy))

theorem abParReduceMin_isSome :
    ∀ (xs : List (Option Movement × Int)) (acc : Option Movement × Int),
    acc.1.isSome → (∀ y ∈ xs, y.1.isSome) →
    (abParReduceMin acc xs).1.isSome := by
  intro xs
  induction xs with
  | nil => intro acc h _; exact h
  | cons x xs' ih =>
    intro acc hacc hall
    simp only [abParReduceMin]
    by_cases h : acc.2 < x.2
    · simp only [h, ite_true]
      exact ih acc hacc (fun y hy => hall y (List.mem_cons_of_mem _ hy))
    · simp only [h, ite_false]
      exact ih x (hall x (List.mem_cons_self x xs')) (fun y hy =>
        hall y (List.mem_cons_of_mem _ hy))

theorem minmax_par_succ_isSome :
    ∀ (d : Nat) (node : Configuration) (m : Bool),
    node.children ≠ [] → (minmax_par node (d+1) m).1.isSome := by
  intro d node m h
  cases node with
  | node p v cs =>
    cases cs with
    | nil => simp [Configuration.children] at h
    | cons c cs' =>
      simp only [minmax_par, Configuration.children,
        Configuration.current_player]
      by_cases hb : (p == m) = true <;> simp [hb]

theorem alpha_beta_par_succ_isSome :
    ∀ (d : Nat) (node : Configuration) (alpha beta : Int) (m : Bool),
    node.children ≠ [] →
    (alpha_beta_par node (d+1) alpha beta m).1.isSome := by
  intro d node alpha beta m h
  cases node with
  | node p v cs =>
    cases cs with
    | nil => simp [Configuration.children] at h
    | cons c cs' =>
      simp only [alpha_beta_par, Configuration.children,
        Configuration.current_player]
      by_cases hb : (m == p) = true
      · simp only [hb, ite_true]
        have hmap := abParMapMax_all_some
          (fun n a b => alpha_beta_par n d a b m) beta (c :: cs') (-128)
        cases hput : abParMapMax
            (fun n a b => alpha_beta_par n d a b m) beta (c :: cs') (-128)
          with
        | nil => simp [abParMapMax] at hput
        | cons x xs =>
          refine abParReduceMax_isSome xs x ?_ ?_
          · exact hmap x (by rw [hput]; exact List.mem_cons_self x xs)
          · intro y hy
            exact hmap y (by rw [hput]; exact List.mem_cons_of_mem _ hy)
      · simp only [hb, ite_false]
        have hmap := abParMapMin_all_some
          (fun n a b => alpha_beta_par n d a b m) alpha (c :: cs') 127
        cases hput : abParMapMin
            (fun n a b => alpha_beta_par n d a b m) alpha (c :: cs') 127
          with
        | nil => simp [abParMapMin] at hput
        | cons x xs =>
          refine abParReduceMin_isSome xs x ?_ ?_
          · exact hmap x (by rw [hput]; exact List.mem_cons_self x xs)
          · intro y hy
            exact hmap y (by rw [hput]; exact List.mem_cons_of_mem _ hy)

/-- C1 counterexample: `oneMoveTree` has a legal move, yet both
`MinMax(1)` and `AlphaBeta(1)` return no move (the constructor depth is
decremented to 0 before the search, which then hits the depth-0 base
case), contradicting the claim for n = 1. -/
theorem C1_counterexample :
    oneMoveTree.movements ≠ [] ∧
    MinMax.compute_next_move 1 oneMoveTree = some none ∧
    AlphaBeta.compute_next_move 1 oneMoveTree = some none := by
  refine ⟨by decide, by decide, by decide⟩

/-- C1 amended: for a configured depth n ≥ 2 both strategies return
`Some move` exactly when the position has at least one legal move and
`None` exactly when it has none; for n = 1 both strategies return `None`
for every position, legal moves or not (the engine is invoked at depth 0).
The outer `Option` layer is the u8-underflow panic marker, `some` here
since n ≥ 1. -/
theorem C1_compute_next_move_someness :
    ∀ (state : Configuration) (n : Nat), 2 ≤ n →
    (MinMax.compute_next_move n state).isSome ∧
    (MinMax.compute_next_move n state = some none ↔
      state.movements = []) ∧
    (AlphaBeta.compute_next_move n state).isSome ∧
    (AlphaBeta.compute_next_move n state = some none ↔
      state.movements = []) ∧
    MinMax.compute_next_move 1 state = some none ∧
    AlphaBeta.compute_next_move 1 state = some none := by
  intro state n hn
  obtain ⟨k, rfl⟩ : ∃ k, n = k + 2 := ⟨n - 2, by omega⟩
  have hsub : k + 2 - 1 = k + 1 := by omega
  have hmove : state.movements = [] ↔ state.children = [] := by
    simp [Configuration.movements]
  refine ⟨?_, ?_, ?_, ?_, ?_, ?_⟩
  · simp [MinMax.compute_next_move]
  · rw [MinMax.compute_next_move, if_neg (by omega : ¬ k + 2 = 0), hsub,
      hmove]
    constructor
    · intro h
      by_contra hne
      have hs := minmax_par_succ_isSome k state state.current_player hne
      have : (minmax_par state (k+1) state.current_player).1 = none := by
        simpa using h
      rw [this] at hs
      simp at hs
    · intro h
      have := (terminal_all_engines (k+1) state state.current_player
        (-128) 127 h).2.1
      simp [this]
  · simp [AlphaBeta.compute_next_move]
  · rw [AlphaBeta.compute_next_move, if_neg (by omega : ¬ k + 2 = 0), hsub,
      hmove]
    constructor
    · intro h
      by_contra hne
      have hs := alpha_beta_par_succ_isSome k state 127 (-128)
        state.current_player hne
      have : (alpha_beta_par state (k+1) 127 (-128)
          state.current_player).1 = none := by
        simpa using h
      rw [this] at hs
      simp at hs
    · intro h
      have := (terminal_all_engines (k+1) state state.current_player
        127 (-128) h).2.2.2.2
      simp [this]
  · rfl
  · rfl

theorem C1_compute_next_move_someness_witness :
    (2 ≤ 2) ∧
    (MinMax.compute_next_move 2 oneMoveTree).isSome ∧
    (AlphaBeta.compute_next_move 2 oneMoveTree).isSome := by
  have h := C1_compute_next_move_someness oneMoveTree 2 (by decide)
  exact ⟨by decide, h.1, h.2.2.1⟩

/-- C9: both strategies' `compute_next_move` evaluate the u8 subtraction
`self.0 - 1`, which underflows (modelled as the `none` panic marker) when
the constructor depth is 0 for every position; with depth at least 1 the
subtraction is safe and the error branch is unreachable (the result is
always `some _`). -/
theorem C9_depth_zero_underflow :
    ∀ (state : Configuration) (n : Nat), 1 ≤ n →
    MinMax.compute_next_move 0 state = none ∧
    AlphaBeta.compute_next_move 0 state = none ∧
    (MinMax.compute_next_move n state).isSome ∧
    (AlphaBeta.compute_next_move n state).isSome := by
  intro state n hn
  have hne : ¬ n = 0 := by omega
  refine ⟨rfl, rfl, ?_, ?_⟩ <;>
    simp [MinMax.compute_next_move, AlphaBeta.compute_next_move, hne]

theorem C9_depth_zero_underflow_witness :
    (1 ≤ 1) ∧
    MinMax.compute_next_move 0 oneMoveTree = none ∧
    AlphaBeta.compute_next_move 0 oneMoveTree = none ∧
    (MinMax.compute_next_move 1 oneMoveTree).isSome ∧
    (AlphaBeta.compute_next_move 1 oneMoveTree).isSome := by
  exact ⟨by decide, C9_depth_zero_underflow oneMoveTree 1 (by decide)⟩

/-- C5 counterexample: the anytime drivers' loop is `for depth in 1..100`,
so the depth sequence is exactly 1..99: depth 100 is never reached and the
loop (hence the driver) terminates by itself after 99 iterations,
contradicting the claim that every depth k = 1, 2, 3, ... is run with no
internal termination condition. -/
theorem C5_counterexample :
    (100 : Nat) ∉ AnytimeDepths ∧ AnytimeDepths.length = 99 ∧
    min_max_anytime (Except.ok ()) oneMoveTree =
      Except.ok (AnytimeDepths.map
        (fun depth =>
          (MinMax.compute_next_move depth oneMoveTree).getD none)) := by
  refine ⟨by decide, by decide, rfl⟩

/-- C5 amended: after a successful connection each anytime driver performs
exactly 99 iterations, for the depths k = 1 through 99 in increasing order
(the Rust range `1..100`); the k-th store publishes
`compute_next_move` of the corresponding strategy at depth k, and the
driver then returns: no depth beyond 99 is ever searched. -/
theorem C5_bounded_iterative_deepening :
    ∀ (state : Configuration) (k : Nat), k < 99 →
    ∃ t u, min_max_anytime (Except.ok ()) state = Except.ok t ∧
      alpha_beta_anytime (Except.ok ()) state = Except.ok u ∧
      t.length = 99 ∧ u.length = 99 ∧
      t[k]? = some ((MinMax.compute_next_move (1 + k) state).getD none) ∧
      u[k]? =
        some ((AlphaBeta.compute_next_move (1 + k) state).getD none) ∧
      (∀ d ∈ AnytimeDepths, 1 ≤ d ∧ d ≤ 99) := by
  intro state k hk
  refine ⟨_, _, rfl, rfl, ?_, ?_, ?_, ?_, ?_⟩
  · simp [AnytimeDepths]
  · simp [AnytimeDepths]
  · simp only [min_max_anytime, AnytimeDepths, List.getElem?_map,
      List.getElem?_range' 1 1 hk, Option.map_some]
    simp
  · simp only [alpha_beta_anytime, AnytimeDepths, List.getElem?_map,
      List.getElem?_range' 1 1 hk, Option.map_some]
    simp
  · intro d hd
    rw [AnytimeDepths, List.mem_range'_1] at hd
    omega

theorem C5_bounded_iterative_deepening_witness :
    (0 < 99) ∧
    (∃ t u, min_max_anytime (Except.ok ()) oneMoveTree = Except.ok t ∧
      alpha_beta_anytime (Except.ok ()) oneMoveTree = Except.ok u ∧
      t.length = 99 ∧ u.length = 99 ∧
      t[0]? =
        some ((MinMax.compute_next_move (1 + 0) oneMoveTree).getD none) ∧
      u[0]? =
        some ((AlphaBeta.compute_next_move (1 + 0) oneMoveTree).getD
          none) ∧
      (∀ d ∈ AnytimeDepths, 1 ≤ d ∧ d ≤ 99)) :=
  ⟨by decide, C5_bounded_iterative_deepening oneMoveTree 0 (by decide)⟩

/-- C7: when the connection to the shared move slot fails, both anytime
drivers propagate the failure fatally (the `.expect` panic): the error is
surfaced unchanged, no retry happens, and no search result is ever
produced or stored (the successful-trace constructor `Except.ok` is never
reached). -/
theorem C7_connect_failure_fatal :
    ∀ (state : Configuration) (e : String),
    min_max_anytime (Except.error e) state = Except.error e ∧
    alpha_beta_anytime (Except.error e) state = Except.error e ∧
    (∀ t, min_max_anytime (Except.error e) state ≠ Except.ok t) ∧
    (∀ t, alpha_beta_anytime (Except.error e) state ≠ Except.ok t) := by
  intro state e
  refine ⟨rfl, rfl, ?_, ?_⟩ <;> intro t h <;> simp [min_max_anytime,
    alpha_beta_anytime] at h

theorem abMaxLoop_progress
    (f : Configuration → Int → Int → Option Movement × Int) (beta : Int) :
    ∀ (l : List (Movement × Configuration)) (a bv : Int)
      (bc : Option Movement),
    abMaxLoop f beta l a bv bc = (bc, bv) ∨
    ∃ mv, (abMaxLoop f beta l a bv bc).1 = some mv ∧
      mv ∈ l.map Prod.fst ∧ a < (abMaxLoop f beta l a bv bc).2 := by
  intro l
  induction l with
  | nil => intro a bv bc; exact Or.inl rfl
  | cons c rest ih =>
    intro a bv bc
    simp only [abMaxLoop]
    by_cases hup : a < (f c.2 a beta).2
    · simp only [hup, ite_true]
      by_cases hcut : beta ≤ (f c.2 a beta).2
      · simp only [hcut, ite_true]
        exact Or.inr ⟨c.1, rfl, by simp, hup⟩
      · simp only [hcut, ite_false]
        rcases ih (f c.2 a beta).2 (f c.2 a beta).2 (some c.1) with h | h
        · refine Or.inr ⟨c.1, ?_, by simp, ?_⟩
          · rw [h]
          · rw [h]; exact hup
        · rcases h with ⟨mv, h1, h2, h3⟩
          exact Or.inr ⟨mv, h1, by simp [h2], lt_trans hup h3⟩
    · simp only [hup, ite_false]
      by_cases hcut : beta ≤ a
      · simp only [hcut, ite_true]
        exact Or.inl trivial
      · simp only [hcut, ite_false]
        rcases ih a bv bc with h | h
        · exact Or.inl h
        · rcases h with ⟨mv, h1, h2, h3⟩
          exact Or.inr ⟨mv, h1, by simp [h2], h3⟩

/-- C6: behavior of sequential Alpha-Beta's recursive case.  With the
recursive evaluator at depth d fixed, the maximizing (resp. minimizing)
recursive case of `alpha_beta` is exactly the running-bound loop
`abMaxLoop` (resp. `abMinLoop`); a child whose value does not strictly
beat the running bound (in particular a tying child) changes neither the
bound nor the chosen move; a strictly better child updates bound, move
and value together, after which evaluation of the remaining siblings
stops as soon as the bounds cross (`alpha >= beta`), the remaining
siblings being irrelevant to the result; a `none` move result means no
child ever strictly improved the bound (the state is still the initial
one), and a `some mv` result names a child movement and comes with a
final value strictly above the initial bound. -/
theorem C6_alpha_beta_running_bound :
    ∀ (d : Nat) (m : Bool) (alpha beta : Int),
    (∀ (p : Bool) (v : Int) (c : Movement × Configuration)
        (cs : List (Movement × Configuration)),
      (m == p) = true →
      alpha_beta (.node p v (c :: cs)) (d+1) alpha beta m =
        abMaxLoop (fun n a b => alpha_beta n d a b m) beta (c :: cs)
          alpha (-128) none) ∧
    (∀ (p : Bool) (v : Int) (c : Movement × Configuration)
        (cs : List (Movement × Configuration)),
      (m == p) = false →
      alpha_beta (.node p v (c :: cs)) (d+1) alpha beta m =
        abMinLoop (fun n a b => alpha_beta n d a b m) alpha (c :: cs)
          beta 127 none) ∧
    (∀ (mv : Movement) (c : Configuration)
        (rest : List (Movement × Configuration)) (a bv : Int)
        (bc : Option Movement),
      (alpha_beta c d a beta m).2 ≤ a → a < beta →
      abMaxLoop (fun n a' b => alpha_beta n d a' b m) beta
        ((mv, c) :: rest) a bv bc =
      abMaxLoop (fun n a' b => alpha_beta n d a' b m) beta rest a bv bc) ∧
    (∀ (mv : Movement) (c : Configuration)
        (rest : List (Movement × Configuration)) (b bv : Int)
        (bc : Option Movement),
      b ≤ (alpha_beta c d alpha b m).2 → alpha < b →
      abMinLoop (fun n a b' => alpha_beta n d a b' m) alpha
        ((mv, c) :: rest) b bv bc =
      abMinLoop (fun n a b' => alpha_beta n d a b' m) alpha rest b bv
        bc) ∧
    (∀ (mv : Movement) (c : Configuration)
        (rest : List (Movement × Configuration)) (a bv : Int)
        (bc : Option Movement),
      a < (alpha_beta c d a beta m).2 →
      abMaxLoop (fun n a' b => alpha_beta n d a' b m) beta
        ((mv, c) :: rest) a bv bc =
        if beta ≤ (alpha_beta c d a beta m).2
        then (some mv, (alpha_beta c d a beta m).2)
        else abMaxLoop (fun n a' b => alpha_beta n d a' b m) beta rest
          (alpha_beta c d a beta m).2 (alpha_beta c d a beta m).2
          (some mv)) ∧
    (∀ (mv : Movement) (c : Configuration)
        (rest : List (Movement × Configuration)) (b bv : Int)
        (bc : Option Movement),
      (alpha_beta c d alpha b m).2 < b →
      abMinLoop (fun n a b' => alpha_beta n d a b' m) alpha
        ((mv, c) :: rest) b bv bc =
        if (alpha_beta c d alpha b m).2 ≤ alpha
        then (some mv, (alpha_beta c d alpha b m).2)
        else abMinLoop (fun n a b' => alpha_beta n d a b' m) alpha rest
          (alpha_beta c d alpha b m).2 (alpha_beta c d alpha b m).2
          (some mv)) ∧
    (∀ (mv : Movement) (c : Configuration)
        (rest rest' : List (Movement × Configuration)) (a bv : Int)
        (bc : Option Movement),
      beta ≤ (if a < (alpha_beta c d a beta m).2
              then (alpha_beta c d a beta m).2 else a) →
      abMaxLoop (fun n a' b => alpha_beta n d a' b m) beta
        ((mv, c) :: rest) a bv bc =
      abMaxLoop (fun n a' b => alpha_beta n d a' b m) beta
        ((mv, c) :: rest') a bv bc) ∧
    (∀ (l : List (Movement × Configuration)) (a : Int),
      (abMaxLoop (fun n a' b => alpha_beta n d a' b m) beta l a (-128)
        none).1 = none →
      abMaxLoop (fun n a' b => alpha_beta n d a' b m) beta l a (-128)
        none = (none, -128)) ∧
    (∀ (l : List (Movement × Configuration)) (a : Int) (mv : Movement),
      (abMaxLoop (fun n a' b => alpha_beta n d a' b m) beta l a (-128)
        none).1 = some mv →
      mv ∈ l.map Prod.fst ∧
      a < (abMaxLoop (fun n a' b => alpha_beta n d a' b m) beta l a
        (-128) none).2) := by
  intro d m alpha beta
  refine ⟨?_, ?_, ?_, ?_, ?_, ?_, ?_, ?_, ?_⟩
  · intro p v c cs hm
    simp only [alpha_beta, Configuration.children,
      Configuration.current_player, hm, ite_true]
  · intro p v c cs hm
    simp only [alpha_beta, Configuration.children,
      Configuration.current_player, hm, Bool.false_eq_true, ite_false]
  · intro mv c rest a bv bc hle hab
    simp only [abMaxLoop, not_lt.mpr hle, ite_false, not_le.mpr hab]
  · intro mv c rest b bv bc hle hab
    simp only [abMinLoop, not_lt.mpr hle, ite_false, not_le.mpr hab]
  · intro mv c rest a bv bc hlt
    simp only [abMaxLoop, hlt, ite_true]
  · intro mv c rest b bv bc hlt
    simp only [abMinLoop, hlt, ite_true]
  · intro mv c rest rest' a bv bc hcut
    by_cases hup : a < (alpha_beta c d a beta m).2
    · simp only [hup, ite_true] at hcut
      simp only [abMaxLoop, hup, ite_true, hcut]
    · simp only [hup, ite_false] at hcut
      simp only [abMaxLoop, hup, ite_false, hcut, ite_true]
  · intro l a hnone
    rcases abMaxLoop_progress (fun n a' b => alpha_beta n d a' b m) beta
      l a (-128) none with h | h
    · exact h
    · rcases h with ⟨mv, h1, _, _⟩
      rw [hnone] at h1
      exact absurd h1 (by simp)
  · intro l a mv hsome
    rcases abMaxLoop_progress (fun n a' b => alpha_beta n d a' b m) beta
      l a (-128) none with h | h
    · rw [h] at hsome
      exact absurd hsome (by simp)
    · rcases h with ⟨mv', h1, h2, h3⟩
      rw [hsome] at h1
      obtain rfl : mv' = mv := by simpa using h1.symm
      exact ⟨h2, h3⟩

theorem C6_alpha_beta_running_bound_witness :
    (alpha_beta (.node true 3 [(0, Configuration.node false 4 [])]) 1 5 9
        true =
      abMaxLoop (fun n a b => alpha_beta n 0 a b true) 9
        [(0, Configuration.node false 4 [])] 5 (-128) none) ∧
    (alpha_beta (.node false 3 [(0, Configuration.node false 4 [])]) 1 5 9
        true =
      abMinLoop (fun n a b => alpha_beta n 0 a b true) 5
        [(0, Configuration.node false 4 [])] 9 127 none) ∧
    (abMaxLoop (fun n a' b => alpha_beta n 0 a' b true) 9
        [(0, Configuration.node false 4 [])] 5 (-128) none =
      abMaxLoop (fun n a' b => alpha_beta n 0 a' b true) 9 [] 5 (-128)
        none) ∧
    (abMinLoop (fun n a b' => alpha_beta n 0 a b' true) 5
        [(0, Configuration.node false 7 [])] 6 127 none =
      abMinLoop (fun n a b' => alpha_beta n 0 a b' true) 5 [] 6 127
        none) ∧
    (abMaxLoop (fun n a' b => alpha_beta n 0 a' b true) 9
        [(0, Configuration.node false 7 [])] 5 (-128) none =
      if 9 ≤ (alpha_beta (Configuration.node false 7 []) 0 5 9 true).2
      then (some 0, (alpha_beta (Configuration.node false 7 []) 0 5 9
        true).2)
      else abMaxLoop (fun n a' b => alpha_beta n 0 a' b true) 9 []
        (alpha_beta (Configuration.node false 7 []) 0 5 9 true).2
        (alpha_beta (Configuration.node false 7 []) 0 5 9 true).2
        (some 0)) ∧
    (abMinLoop (fun n a b' => alpha_beta n 0 a b' true) 5
        [(0, Configuration.node false 4 [])] 6 127 none =
      if (alpha_beta (Configuration.node false 4 []) 0 5 6 true).2 ≤ 5
      then (some 0, (alpha_beta (Configuration.node false 4 []) 0 5 6
        true).2)
      else abMinLoop (fun n a b' => alpha_beta n 0 a b' true) 5 []
        (alpha_beta (Configuration.node false 4 []) 0 5 6 true).2
        (alpha_beta (Configuration.node false 4 []) 0 5 6 true).2
        (some 0)) ∧
    (abMaxLoop (fun n a' b => alpha_beta n 0 a' b true) 9
        [(0, Configuration.node false 10 []),
          (1, Configuration.node false 4 [])] 5 (-128) none =
      abMaxLoop (fun n a' b => alpha_beta n 0 a' b true) 9
        [(0, Configuration.node false 10 [])] 5 (-128) none) ∧
    (abMaxLoop (fun n a' b => alpha_beta n 0 a' b true) 9
        [(0, Configuration.node false 4 [])] 5 (-128) none =
      (none, -128)) ∧
    ((0 : Movement) ∈
        ([(0, Configuration.node false 7 [])].map Prod.fst :
          List Movement) ∧
      (5 : Int) < (abMaxLoop (fun n a' b => alpha_beta n 0 a' b true) 9
        [(0, Configuration.node false 7 [])] 5 (-128) none).2) := by
  have h59 := C6_alpha_beta_running_bound 0 true 5 9
  have h56 := C6_alpha_beta_running_bound 0 true 5 6
  refine ⟨?_, ?_, ?_, ?_, ?_, ?_, ?_, ?_, ?_⟩
  · exact h59.1 true 3 (0, Configuration.node false 4 []) [] (by decide)
  · exact h59.2.1 false 3 (0, Configuration.node false 4 []) []
      (by decide)
  · exact h59.2.2.1 0 (Configuration.node false 4 []) [] 5 (-128) none
      (by decide) (by decide)
  · exact h56.2.2.2.1 0 (Configuration.node false 7 []) [] 6 127 none
      (by decide) (by decide)
  · exact h59.2.2.2.2.1 0 (Configuration.node false 7 []) [] 5 (-128)
      none (by decide)
  · exact h56.2.2.2.2.2.1 0 (Configuration.node false 4 []) [] 6 127
      none (by decide)
  · exact h59.2.2.2.2.2.2.1 0 (Configuration.node false 10 [])
      [(1, Configuration.node false 4 [])] [] 5 (-128) none (by decide)
  · exact h59.2.2.2.2.2.2.2.1 [(0, Configuration.node false 4 [])] 5
      (by decide)
  · exact h59.2.2.2.2.2.2.2.2 [(0, Configuration.node false 7 [])] 5 0
      (by decide)

theorem max_by_key_last_mem {α : Type} (f : α → Int) :
    ∀ (xs : List α) (x : α), max_by_key_last f x xs ∈ x :: xs := by
  intro xs
  induction xs with
  | nil => intro x; simp [max_by_key_last]
  | cons y ys ih =>
    intro x
    rw [max_by_key_last_cons]
    rcases List.mem_cons.mp (ih (if f x ≤ f y then y else x)) with h | h
    · by_cases hxy : f x ≤ f y
      · rw [h, if_pos hxy]; simp
      · rw [h, if_neg hxy]; simp
    · simp [h]

theorem max_by_key_last_ub {α : Type} (f : α → Int) :
    ∀ (xs : List α) (x : α) (y : α), y ∈ x :: xs →
    f y ≤ f (max_by_key_last f x xs) := by
  intro xs
  induction xs with
  | nil =>
    intro x y hy
    rcases List.mem_cons.mp hy with h | h
    · subst h; exact le_refl _
    · simp at h
  | cons z zs ih =>
    intro x y hy
    rw [max_by_key_last_cons]
    by_cases hxz : f x ≤ f z
    · rw [if_pos hxz]
      rcases List.mem_cons.mp hy with h | h
      · subst h
        exact le_trans hxz (ih z z (by simp))
      · exact ih z y h
    · rw [if_neg hxz]
      rcases List.mem_cons.mp hy with h | h
      · rw [h]; exact ih x x (by simp)
      · rcases List.mem_cons.mp h with h' | h'
        · rw [h']
          exact le_trans (le_of_not_le hxz) (ih x x (by simp))
        · exact ih x y (by simp [h'])

theorem min_by_key_first_mem {α : Type} (f : α → Int) :
    ∀ (xs : List α) (x : α), min_by_key_first f x xs ∈ x :: xs := by
  intro xs
  induction xs with
  | nil => intro x; simp [min_by_key_first]
  | cons y ys ih =>
    intro x
    rw [min_by_key_first_cons]
    rcases List.mem_cons.mp (ih (if f y < f x then y else x)) with h | h
    · by_cases hxy : f y < f x
      · rw [h, if_pos hxy]; simp
      · rw [h, if_neg hxy]; simp
    · simp [h]

theorem min_by_key_first_lb {α : Type} (f : α → Int) :
    ∀ (xs : List α) (x : α) (y : α), y ∈ x :: xs →
    f (min_by_key_first f x xs) ≤ f y := by
  intro xs
  induction xs with
  | nil =>
    intro x y hy
    rcases List.mem_cons.mp hy with h | h
    · subst h; exact le_refl _
    · simp at h
  | cons z zs ih =>
    intro x y hy
    rw [min_by_key_first_cons]
    by_cases hzx : f z < f x
    · rw [if_pos hzx]
      rcases List.mem_cons.mp hy with h | h
      · subst h
        exact le_trans (ih z z (by simp)) (le_of_lt hzx)
      · exact ih z y h
    · rw [if_neg hzx]
      rcases List.mem_cons.mp hy with h | h
      · rw [h]; exact ih x x (by simp)
      · rcases List.mem_cons.mp h with h' | h'
        · rw [h']
          exact le_trans (ih x x (by simp)) (le_of_not_lt hzx)
        · exact ih x y (by simp [h'])

theorem InRangeB_value :
    ∀ (d : Nat) (node : Configuration), InRangeB d node = true →
    -128 ≤ node.value ∧ node.value ≤ 127 := by
  intro d node h
  cases node with
  | node p v cs =>
    cases d with
    | zero =>
      simp only [InRangeB, Bool.and_eq_true, decide_eq_true_eq] at h
      exact ⟨h.1, h.2⟩
    | succ d =>
      simp only [InRangeB, Bool.and_eq_true, decide_eq_true_eq] at h
      exact ⟨h.1.1, h.1.2⟩

theorem InRangeB_children :
    ∀ (d : Nat) (node : Configuration), InRangeB (d+1) node = true →
    ∀ ch ∈ node.children, InRangeB d ch.2 = true := by
  intro d node h ch hch
  cases node with
  | node p v cs =>
    simp only [InRangeB, Bool.and_eq_true, List.all_eq_true] at h
    exact h.2 ch hch

theorem i8neg_range (v : Int) (h1 : -128 ≤ v) (h2 : v ≤ 127) :
    -128 ≤ i8neg v ∧ i8neg v ≤ 127 := by
  rw [i8neg]
  by_cases h : v = -128
  · simp [h]
  · rw [if_neg h]
    omega

theorem base_score_range :
    ∀ (d : Nat) (node : Configuration) (m : Bool),
    InRangeB d node = true →
    -128 ≤ base_score node m ∧ base_score node m ≤ 127 := by
  intro d node m h
  obtain ⟨h1, h2⟩ := InRangeB_value d node h
  rw [base_score]
  by_cases hm : (m == node.current_player) = true
  · rw [if_pos hm]
    exact i8neg_range node.value h1 h2
  · rw [if_neg hm]
    exact ⟨h1, h2⟩

theorem minmax_fonc_succ_max :
    ∀ (d : Nat) (p : Bool) (v : Int) (c : Movement × Configuration)
      (cs : List (Movement × Configuration)) (m : Bool),
    (p == m) = true →
    (∃ ch ∈ c :: cs,
        (minmax_fonc (.node p v (c :: cs)) (d+1) m).2 =
          (minmax_fonc ch.2 d m).2) ∧
    (∀ ch ∈ c :: cs,
        (minmax_fonc ch.2 d m).2 ≤
          (minmax_fonc (.node p v (c :: cs)) (d+1) m).2) := by
  intro d p v c cs m hpm
  simp only [minmax_fonc, Configuration.children,
    Configuration.current_player, hpm, ite_true]
  constructor
  · rcases List.mem_cons.mp (max_by_key_last_mem
        (fun pr : Movement × Int => pr.2)
        (cs.map (fun child => (child.1, (minmax_fonc child.2 d m).2)))
        (c.1, (minmax_fonc c.2 d m).2)) with h | h
    · exact ⟨c, by simp, by rw [h]⟩
    · rcases List.mem_map.mp h with ⟨ch, hch, heq⟩
      exact ⟨ch, by simp [hch], by rw [← heq]⟩
  · intro ch hch
    rcases List.mem_cons.mp hch with h | h
    · have := max_by_key_last_ub (fun pr : Movement × Int => pr.2)
        (cs.map (fun child => (child.1, (minmax_fonc child.2 d m).2)))
        (c.1, (minmax_fonc c.2 d m).2)
        (ch.1, (minmax_fonc ch.2 d m).2) (by rw [h]; simp)
      exact this
    · have := max_by_key_last_ub (fun pr : Movement × Int => pr.2)
        (cs.map (fun child => (child.1, (minmax_fonc child.2 d m).2)))
        (c.1, (minmax_fonc c.2 d m).2)
        (ch.1, (minmax_fonc ch.2 d m).2)
        (by
          refine List.mem_cons_of_mem _ ?_
          exact List.mem_map.mpr ⟨ch, h, rfl⟩)
      exact this

theorem minmax_fonc_succ_min :
    ∀ (d : Nat) (p : Bool) (v : Int) (c : Movement × Configuration)
      (cs : List (Movement × Configuration)) (m : Bool),
    (p == m) = false →
    (∃ ch ∈ c :: cs,
        (minmax_fonc (.node p v (c :: cs)) (d+1) m).2 =
          (minmax_fonc ch.2 d m).2) ∧
    (∀ ch ∈ c :: cs,
        (minmax_fonc (.node p v (c :: cs)) (d+1) m).2 ≤
          (minmax_fonc ch.2 d m).2) := by
  intro d p v c cs m hpm
  simp only [minmax_fonc, Configuration.children,
    Configuration.current_player, hpm, Bool.false_eq_true, ite_false]
  constructor
  · rcases List.mem_cons.mp (min_by_key_first_mem
        (fun pr : Movement × Int => pr.2)
        (cs.map (fun child => (child.1, (minmax_fonc child.2 d m).2)))
        (c.1, (minmax_fonc c.2 d m).2)) with h | h
    · exact ⟨c, by simp, by rw [h]⟩
    · rcases List.mem_map.mp h with ⟨ch, hch, heq⟩
      exact ⟨ch, by simp [hch], by rw [← heq]⟩
  · intro ch hch
    rcases List.mem_cons.mp hch with h | h
    · have := min_by_key_first_lb (fun pr : Movement × Int => pr.2)
        (cs.map (fun child => (child.1, (minmax_fonc child.2 d m).2)))
        (c.1, (minmax_fonc c.2 d m).2)
        (ch.1, (minmax_fonc ch.2 d m).2) (by rw [h]; simp)
      exact this
    · have := min_by_key_first_lb (fun pr : Movement × Int => pr.2)
        (cs.map (fun child => (child.1, (minmax_fonc child.2 d m).2)))
        (c.1, (minmax_fonc c.2 d m).2)
        (ch.1, (minmax_fonc ch.2 d m).2)
        (by
          refine List.mem_cons_of_mem _ ?_
          exact List.mem_map.mpr ⟨ch, h, rfl⟩)
      exact this

theorem minmax_fonc_range :
    ∀ (d : Nat) (node : Configuration) (m : Bool),
    InRangeB d node = true →
    -128 ≤ (minmax_fonc node d m).2 ∧ (minmax_fonc node d m).2 ≤ 127 := by
  intro d
  induction d with
  | zero => intro node m h; exact base_score_range 0 node m h
  | succ d ih =>
    intro node m h
    cases node with
    | node p v cs =>
      cases cs with
      | nil => exact base_score_range (d+1) (.node p v []) m h
      | cons c cs' =>
        have hch := InRangeB_children d (.node p v (c :: cs')) h
        simp only [Configuration.children] at hch
        by_cases hpm : (p == m) = true
        · obtain ⟨⟨ch, hchm, heq⟩, _⟩ :=
            minmax_fonc_succ_max d p v c cs' m hpm
          rw [heq]
          exact ih ch.2 m (hch ch hchm)
        · obtain ⟨⟨ch, hchm, heq⟩, _⟩ :=
            minmax_fonc_succ_min d p v c cs' m
              (Bool.not_eq_true _ ▸ hpm : (p == m) = false)
          rw [heq]
          exact ih ch.2 m (hch ch hchm)

theorem abMaxLoop_range_aux
    (f : Configuration → Int → Int → Option Movement × Int) (beta : Int) :
    ∀ (l : List (Movement × Configuration)) (a bv : Int)
      (bc : Option Movement),
    -128 ≤ bv → bv ≤ 127 →
    (∀ ch ∈ l, ∀ a' b' : Int,
      -128 ≤ (f ch.2 a' b').2 ∧ (f ch.2 a' b').2 ≤ 127) →
    -128 ≤ (abMaxLoop f beta l a bv bc).2 ∧
      (abMaxLoop f beta l a bv bc).2 ≤ 127 := by
  intro l
  induction l with
  | nil => intro a bv bc h1 h2 _; exact ⟨h1, h2⟩
  | cons c rest ih =>
    intro a bv bc h1 h2 hf
    have hcr := hf c (by simp) a beta
    have hfr : ∀ ch ∈ rest, ∀ a' b' : Int,
        -128 ≤ (f ch.2 a' b').2 ∧ (f ch.2 a' b').2 ≤ 127 :=
      fun ch hch => hf ch (List.mem_cons_of_mem _ hch)
    simp only [abMaxLoop]
    by_cases hup : a < (f c.2 a beta).2
    · simp only [hup, ite_true]
      by_cases hcut : beta ≤ (f c.2 a beta).2
      · simp only [hcut, ite_true]
        exact hcr
      · simp only [hcut, ite_false]
        exact ih (f c.2 a beta).2 (f c.2 a beta).2 (some c.1)
          hcr.1 hcr.2 hfr
    · simp only [hup, ite_false]
      by_cases hcut : beta ≤ a
      · simp only [hcut, ite_true]
        exact ⟨h1, h2⟩
      · simp only [hcut, ite_false]
        exact ih a bv bc h1 h2 hfr

theorem abMinLoop_range_aux
    (f : Configuration → Int → Int → Option Movement × Int)
    (alpha : Int) :
    ∀ (l : List (Movement × Configuration)) (b bv : Int)
      (bc : Option Movement),
    -128 ≤ bv → bv ≤ 127 →
    (∀ ch ∈ l, ∀ a' b' : Int,
      -128 ≤ (f ch.2 a' b').2 ∧ (f ch.2 a' b').2 ≤ 127) →
    -128 ≤ (abMinLoop f alpha l b bv bc).2 ∧
      (abMinLoop f alpha l b bv bc).2 ≤ 127 := by
  intro l
  induction l with
  | nil => intro b bv bc h1 h2 _; exact ⟨h1, h2⟩
  | cons c rest ih =>
    intro b bv bc h1 h2 hf
    have hcr := hf c (by simp) alpha b
    have hfr : ∀ ch ∈ rest, ∀ a' b' : Int,
        -128 ≤ (f ch.2 a' b').2 ∧ (f ch.2 a' b').2 ≤ 127 :=
      fun ch hch => hf ch (List.mem_cons_of_mem _ hch)
    simp only [abMinLoop]
    by_cases hup : (f c.2 alpha b).2 < b
    · simp only [hup, ite_true]
      by_cases hcut : (f c.2 alpha b).2 ≤ alpha
      · simp only [hcut, ite_true]
        exact hcr
      · simp only [hcut, ite_false]
        exact ih (f c.2 alpha b).2 (f c.2 alpha b).2 (some c.1)
          hcr.1 hcr.2 hfr
    · simp only [hup, ite_false]
      by_cases hcut : b ≤ alpha
      · simp only [hcut, ite_true]
        exact ⟨h1, h2⟩
      · simp only [hcut, ite_false]
        exact ih b bv bc h1 h2 hfr

theorem alpha_beta_range :
    ∀ (d : Nat) (node : Configuration) (alpha beta : Int) (m : Bool),
    InRangeB d node = true →
    -128 ≤ (alpha_beta node d alpha beta m).2 ∧
      (alpha_beta node d alpha beta m).2 ≤ 127 := by
  intro d
  induction d with
  | zero => intro node alpha beta m h; exact base_score_range 0 node m h
  | succ d ih =>
    intro node alpha beta m h
    cases node with
    | node p v cs =>
      cases cs with
      | nil => exact base_score_range (d+1) (.node p v []) m h
      | cons c cs' =>
        have hch := InRangeB_children d (.node p v (c :: cs')) h
        simp only [Configuration.children] at hch
        have hf : ∀ ch ∈ c :: cs', ∀ a' b' : Int,
            -128 ≤ (alpha_beta ch.2 d a' b' m).2 ∧
              (alpha_beta ch.2 d a' b' m).2 ≤ 127 :=
          fun ch hchm a' b' => ih ch.2 a' b' m (hch ch hchm)
        simp only [alpha_beta, Configuration.children,
          Configuration.current_player]
        by_cases hpm : (m == p) = true
        · simp only [hpm, ite_true]
          exact abMaxLoop_range_aux
            (fun n a b => alpha_beta n d a b m) beta (c :: cs') alpha
            (-128) none (by omega) (by omega) hf
        · simp only [hpm, ite_false]
          exact abMinLoop_range_aux
            (fun n a b => alpha_beta n d a b m) alpha (c :: cs') beta
            127 none (by omega) (by omega) hf

theorem abMaxLoop_window
    (f : Configuration → Int → Int → Option Movement × Int)
    (g : Configuration → Int) (beta : Int) :
    ∀ (l : List (Movement × Configuration)) (a bv : Int)
      (bc : Option Movement),
    -128 ≤ a → a < beta →
    (∀ ch ∈ l, -128 ≤ g ch.2 ∧ g ch.2 ≤ 127) →
    (∀ ch ∈ l, ∀ a' : Int, -128 ≤ a' → a' < beta →
      ((g ch.2 ≤ a' → (f ch.2 a' beta).2 ≤ a') ∧
       (beta ≤ g ch.2 → beta ≤ (f ch.2 a' beta).2) ∧
       (a' < g ch.2 → g ch.2 < beta → (f ch.2 a' beta).2 = g ch.2))) →
    (((∀ ch ∈ l, g ch.2 ≤ a) → abMaxLoop f beta l a bv bc = (bc, bv)) ∧
     ((∀ ch ∈ l, g ch.2 < beta) → (∃ ch ∈ l, a < g ch.2) →
       ((∃ ch ∈ l, (abMaxLoop f beta l a bv bc).2 = g ch.2) ∧
        (∀ ch ∈ l, g ch.2 ≤ (abMaxLoop f beta l a bv bc).2))) ∧
     ((∃ ch ∈ l, beta ≤ g ch.2) →
        beta ≤ (abMaxLoop f beta l a bv bc).2)) := by
  intro l
  induction l with
  | nil =>
    intro a bv bc ha hab hg hf
    refine ⟨fun _ => rfl, fun _ hex => absurd hex (by simp),
      fun hex => absurd hex (by simp)⟩
  | cons c rest ih =>
    intro a bv bc ha hab hg hf
    have hgc := hg c (by simp)
    have hfc := hf c (by simp) a ha hab
    have hgr : ∀ ch ∈ rest, -128 ≤ g ch.2 ∧ g ch.2 ≤ 127 :=
      fun ch h => hg ch (List.mem_cons_of_mem _ h)
    have hfr : ∀ ch ∈ rest, ∀ a' : Int, -128 ≤ a' → a' < beta →
        ((g ch.2 ≤ a' → (f ch.2 a' beta).2 ≤ a') ∧
         (beta ≤ g ch.2 → beta ≤ (f ch.2 a' beta).2) ∧
         (a' < g ch.2 → g ch.2 < beta → (f ch.2 a' beta).2 = g ch.2)) :=
      fun ch h => hf ch (List.mem_cons_of_mem _ h)
    by_cases h1 : g c.2 ≤ a
    · have hr : (f c.2 a beta).2 ≤ a := hfc.1 h1
      have hup : ¬ a < (f c.2 a beta).2 := not_lt.mpr hr
      have hcut : ¬ beta ≤ a := not_le.mpr hab
      have hstep : abMaxLoop f beta (c :: rest) a bv bc =
          abMaxLoop f beta rest a bv bc := by
        simp only [abMaxLoop, hup, ite_false, hcut]
      rw [hstep]
      have ihr := ih a bv bc ha hab hgr hfr
      refine ⟨?_, ?_, ?_⟩
      · intro hall
        exact ihr.1 (fun ch h => hall ch (List.mem_cons_of_mem _ h))
      · intro hallb hex
        rcases hex with ⟨w, hw, haw⟩
        rcases List.mem_cons.mp hw with hwc | hwr
        · exfalso
          rw [hwc] at haw
          omega
        · have ihre := ihr.2.1
            (fun ch h => hallb ch (List.mem_cons_of_mem _ h))
            ⟨w, hwr, haw⟩
          refine ⟨?_, ?_⟩
          · rcases ihre.1 with ⟨z, hz, hzeq⟩
            exact ⟨z, List.mem_cons_of_mem _ hz, hzeq⟩
          · intro ch hch
            rcases List.mem_cons.mp hch with hc2 | hr2
            · have hw2 := ihre.2 w hwr
              rw [hc2]
              omega
            · exact ihre.2 ch hr2
      · intro hex
        rcases hex with ⟨w, hw, hbw⟩
        rcases List.mem_cons.mp hw with hwc | hwr
        · exfalso
          rw [hwc] at hbw
          omega
        · exact ihr.2.2 ⟨w, hwr, hbw⟩
    · by_cases h2 : beta ≤ g c.2
      · have hr : beta ≤ (f c.2 a beta).2 := hfc.2.1 h2
        have hup : a < (f c.2 a beta).2 := lt_of_lt_of_le hab hr
        have hstep : abMaxLoop f beta (c :: rest) a bv bc =
            (some c.1, (f c.2 a beta).2) := by
          simp only [abMaxLoop, hup, ite_true, hr]
        rw [hstep]
        refine ⟨?_, ?_, ?_⟩
        · intro hall
          exact absurd (hall c (by simp)) h1
        · intro hallb _
          have := hallb c (by simp)
          omega
        · intro _
          exact hr
      · have hac : a < g c.2 := not_le.mp h1
        have hcb : g c.2 < beta := not_le.mp h2
        have hveq : (f c.2 a beta).2 = g c.2 := hfc.2.2 hac hcb
        have hup : a < (f c.2 a beta).2 := by rw [hveq]; exact hac
        have hncut : ¬ beta ≤ (f c.2 a beta).2 := by
          rw [hveq]; exact not_le.mpr hcb
        have hstep : abMaxLoop f beta (c :: rest) a bv bc =
            abMaxLoop f beta rest (g c.2) (g c.2) (some c.1) := by
          simp only [abMaxLoop, hveq, hac, ite_true, h2, ite_false]
        rw [hstep]
        have ihr := ih (g c.2) (g c.2) (some c.1) hgc.1 hcb hgr hfr
        refine ⟨?_, ?_, ?_⟩
        · intro hall
          exact absurd (hall c (by simp)) h1
        · intro hallb _
          by_cases hex2 : ∃ ch ∈ rest, g c.2 < g ch.2
          · have ihre := ihr.2.1
              (fun ch h => hallb ch (List.mem_cons_of_mem _ h)) hex2
            refine ⟨?_, ?_⟩
            · rcases ihre.1 with ⟨z, hz, hzeq⟩
              exact ⟨z, List.mem_cons_of_mem _ hz, hzeq⟩
            · intro ch hch
              rcases List.mem_cons.mp hch with hc2 | hr2
              · rcases hex2 with ⟨w, hw, hlt⟩
                have hw2 := ihre.2 w hw
                rw [hc2]
                omega
              · exact ihre.2 ch hr2
          · push_neg at hex2
            have hres := ihr.1 hex2
            rw [hres]
            refine ⟨⟨c, by simp, rfl⟩, ?_⟩
            intro ch hch
            rcases List.mem_cons.mp hch with hc2 | hr2
            · rw [hc2]
            · exact hex2 ch hr2
        · intro hex
          rcases hex with ⟨w, hw, hbw⟩
          rcases List.mem_cons.mp hw with hwc | hwr
          · exfalso
            rw [hwc] at hbw
            omega
          · exact ihr.2.2 ⟨w, hwr, hbw⟩

theorem abMinLoop_window
    (f : Configuration → Int → Int → Option Movement × Int)
    (g : Configuration → Int) (alpha : Int) :
    ∀ (l : List (Movement × Configuration)) (b bv : Int)
      (bc : Option Movement),
    b ≤ 127 → alpha < b →
    (∀ ch ∈ l, -128 ≤ g ch.2 ∧ g ch.2 ≤ 127) →
    (∀ ch ∈ l, ∀ b' : Int, b' ≤ 127 → alpha < b' →
      ((b' ≤ g ch.2 → b' ≤ (f ch.2 alpha b').2) ∧
       (g ch.2 ≤ alpha → (f ch.2 alpha b').2 ≤ alpha) ∧
       (alpha < g ch.2 → g ch.2 < b' → (f ch.2 alpha b').2 = g ch.2))) →
    (((∀ ch ∈ l, b ≤ g ch.2) → abMinLoop f alpha l b bv bc = (bc, bv)) ∧
     ((∀ ch ∈ l, alpha < g ch.2) → (∃ ch ∈ l, g ch.2 < b) →
       ((∃ ch ∈ l, (abMinLoop f alpha l b bv bc).2 = g ch.2) ∧
        (∀ ch ∈ l, (abMinLoop f alpha l b bv bc).2 ≤ g ch.2))) ∧
     ((∃ ch ∈ l, g ch.2 ≤ alpha) →
        (abMinLoop f alpha l b bv bc).2 ≤ alpha)) := by
  intro l
  induction l with
  | nil =>
    intro b bv bc hb hab hg hf
    refine ⟨fun _ => rfl, fun _ hex => absurd hex (by simp),
      fun hex => absurd hex (by simp)⟩
  | cons c rest ih =>
    intro b bv bc hb hab hg hf
    have hgc := hg c (by simp)
    have hfc := hf c (by simp) b hb hab
    have hgr : ∀ ch ∈ rest, -128 ≤ g ch.2 ∧ g ch.2 ≤ 127 :=
      fun ch h => hg ch (List.mem_cons_of_mem _ h)
    have hfr : ∀ ch ∈ rest, ∀ b' : Int, b' ≤ 127 → alpha < b' →
        ((b' ≤ g ch.2 → b' ≤ (f ch.2 alpha b').2) ∧
         (g ch.2 ≤ alpha → (f ch.2 alpha b').2 ≤ alpha) ∧
         (alpha < g ch.2 → g ch.2 < b' →
            (f ch.2 alpha b').2 = g ch.2)) :=
      fun ch h => hf ch (List.mem_cons_of_mem _ h)
    by_cases h1 : b ≤ g c.2
    · have hr : b ≤ (f c.2 alpha b).2 := hfc.1 h1
      have hup : ¬ (f c.2 alpha b).2 < b := not_lt.mpr hr
      have hcut : ¬ b ≤ alpha := not_le.mpr hab
      have hstep : abMinLoop f alpha (c :: rest) b bv bc =
          abMinLoop f alpha rest b bv bc := by
        simp only [abMinLoop, hup, ite_false, hcut]
      rw [hstep]
      have ihr := ih b bv bc hb hab hgr hfr
      refine ⟨?_, ?_, ?_⟩
      · intro hall
        exact ihr.1 (fun ch h => hall ch (List.mem_cons_of_mem _ h))
      · intro hallb hex
        rcases hex with ⟨w, hw, haw⟩
        rcases List.mem_cons.mp hw with hwc | hwr
        · exfalso
          rw [hwc] at haw
          omega
        · have ihre := ihr.2.1
            (fun ch h => hallb ch (List.mem_cons_of_mem _ h))
            ⟨w, hwr, haw⟩
          refine ⟨?_, ?_⟩
          · rcases ihre.1 with ⟨z, hz, hzeq⟩
            exact ⟨z, List.mem_cons_of_mem _ hz, hzeq⟩
          · intro ch hch
            rcases List.mem_cons.mp hch with hc2 | hr2
            · have hw2 := ihre.2 w hwr
              rw [hc2]
              omega
            · exact ihre.2 ch hr2
      · intro hex
        rcases hex with ⟨w, hw, hbw⟩
        rcases List.mem_cons.mp hw with hwc | hwr
        · exfalso
          rw [hwc] at hbw
          omega
        · exact ihr.2.2 ⟨w, hwr, hbw⟩
    · by_cases h2 : g c.2 ≤ alpha
      · have hr : (f c.2 alpha b).2 ≤ alpha := hfc.2.1 h2
        have hup : (f c.2 alpha b).2 < b := lt_of_le_of_lt hr hab
        have hcut : (f c.2 alpha b).2 ≤ alpha := hr
        have hstep : abMinLoop f alpha (c :: rest) b bv bc =
            (some c.1, (f c.2 alpha b).2) := by
          simp only [abMinLoop, hup, ite_true, hcut]
        rw [hstep]
        refine ⟨?_, ?_, ?_⟩
        · intro hall
          exact absurd (hall c (by simp)) h1
        · intro hallb _
          have := hallb c (by simp)
          omega
        · intro _
          exact hr
      · have hac : alpha < g c.2 := not_le.mp h2
        have hcb : g c.2 < b := not_le.mp h1
        have hveq : (f c.2 alpha b).2 = g c.2 := hfc.2.2 hac hcb
        have hstep : abMinLoop f alpha (c :: rest) b bv bc =
            abMinLoop f alpha rest (g c.2) (g c.2) (some c.1) := by
          simp only [abMinLoop, hveq, hcb, ite_true, h2, ite_false]
        rw [hstep]
        have ihr := ih (g c.2) (g c.2) (some c.1) hgc.2 hac hgr hfr
        refine ⟨?_, ?_, ?_⟩
        · intro hall
          exact absurd (hall c (by simp)) h1
        · intro hallb _
          by_cases hex2 : ∃ ch ∈ rest, g ch.2 < g c.2
          · have ihre := ihr.2.1
              (fun ch h => hallb ch (List.mem_cons_of_mem _ h)) hex2
            refine ⟨?_, ?_⟩
            · rcases ihre.1 with ⟨z, hz, hzeq⟩
              exact ⟨z, List.mem_cons_of_mem _ hz, hzeq⟩
            · intro ch hch
              rcases List.mem_cons.mp hch with hc2 | hr2
              · rcases hex2 with ⟨w, hw, hlt⟩
                have hw2 := ihre.2 w hw
                rw [hc2]
                omega
              · exact ihre.2 ch hr2
          · push_neg at hex2
            have hres := ihr.1 hex2
            rw [hres]
            refine ⟨⟨c, by simp, rfl⟩, ?_⟩
            intro ch hch
            rcases List.mem_cons.mp hch with hc2 | hr2
            · rw [hc2]
            · exact hex2 ch hr2
        · intro hex
          rcases hex with ⟨w, hw, hbw⟩
          rcases List.mem_cons.mp hw with hwc | hwr
          · exfalso
            rw [hwc] at hbw
            omega
          · exact ihr.2.2 ⟨w, hwr, hbw⟩

theorem alpha_beta_window_main :
    ∀ (d : Nat) (node : Configuration) (alpha beta : Int) (m : Bool),
    InRangeB d node = true →
    -128 ≤ alpha → beta ≤ 127 → alpha < beta →
    (((minmax_fonc node d m).2 ≤ alpha →
        (alpha_beta node d alpha beta m).2 ≤ alpha) ∧
     (beta ≤ (minmax_fonc node d m).2 →
        beta ≤ (alpha_beta node d alpha beta m).2) ∧
     (alpha < (minmax_fonc node d m).2 →
        (minmax_fonc node d m).2 < beta →
        (alpha_beta node d alpha beta m).2 =
          (minmax_fonc node d m).2)) := by
  intro d
  induction d with
  | zero =>
    intro node alpha beta m _ _ _ _
    exact ⟨fun h => h, fun h => h, fun _ _ => rfl⟩
  | succ d ih =>
    intro node alpha beta m hrange halpha hbeta hab
    cases node with
    | node p v cs =>
      cases cs with
      | nil =>
        have ht := terminal_all_engines (d+1) (.node p v []) m alpha beta
          rfl
        rw [ht.1, ht.2.2.1]
        exact ⟨fun h => h, fun h => h, fun _ _ => rfl⟩
      | cons c cs' =>
        have hch := InRangeB_children d (.node p v (c :: cs')) hrange
        simp only [Configuration.children] at hch
        have hg : ∀ ch ∈ c :: cs',
            -128 ≤ (minmax_fonc ch.2 d m).2 ∧
              (minmax_fonc ch.2 d m).2 ≤ 127 :=
          fun ch hchm => minmax_fonc_range d ch.2 m (hch ch hchm)
        by_cases hpm : (m == p) = true
        · have hpm' : (p == m) = true := by
            rw [bool_beq_comm]; exact hpm
          obtain ⟨hatt, hub⟩ := minmax_fonc_succ_max d p v c cs' m hpm'
          have hloop : alpha_beta (.node p v (c :: cs')) (d+1) alpha beta
              m =
              abMaxLoop (fun n a b => alpha_beta n d a b m) beta
                (c :: cs') alpha (-128) none := by
            simp only [alpha_beta, Configuration.children,
              Configuration.current_player, hpm, ite_true]
          rw [hloop]
          have hf : ∀ ch ∈ c :: cs', ∀ a' : Int, -128 ≤ a' → a' < beta →
              (((minmax_fonc ch.2 d m).2 ≤ a' →
                  (alpha_beta ch.2 d a' beta m).2 ≤ a') ∧
               (beta ≤ (minmax_fonc ch.2 d m).2 →
                  beta ≤ (alpha_beta ch.2 d a' beta m).2) ∧
               (a' < (minmax_fonc ch.2 d m).2 →
                  (minmax_fonc ch.2 d m).2 < beta →
                  (alpha_beta ch.2 d a' beta m).2 =
                    (minmax_fonc ch.2 d m).2)) :=
            fun ch hchm a' ha' hab' =>
              ih ch.2 a' beta m (hch ch hchm) ha' hbeta hab'
          have hw := abMaxLoop_window
            (fun n a b => alpha_beta n d a b m)
            (fun n => (minmax_fonc n d m).2) beta (c :: cs') alpha
            (-128) none halpha hab hg hf
          simp only at hw
          refine ⟨?_, ?_, ?_⟩
          · intro hva
            have hall : ∀ ch ∈ c :: cs',
                (minmax_fonc ch.2 d m).2 ≤ alpha :=
              fun ch h => le_trans (hub ch h) hva
            rw [hw.1 hall]
            exact halpha
          · intro hbv
            rcases hatt with ⟨w, hwm, hweq⟩
            exact hw.2.2 ⟨w, hwm, by rw [← hweq]; exact hbv⟩
          · intro hav hvb
            have hallb : ∀ ch ∈ c :: cs',
                (minmax_fonc ch.2 d m).2 < beta :=
              fun ch h => lt_of_le_of_lt (hub ch h) hvb
            rcases hatt with ⟨w, hwm, hweq⟩
            have hex : ∃ ch ∈ c :: cs',
                alpha < (minmax_fonc ch.2 d m).2 :=
              ⟨w, hwm, by rw [← hweq]; exact hav⟩
            obtain ⟨⟨z, hz, hzeq⟩, hub2⟩ := hw.2.1 hallb hex
            have h1 := hub z hz
            have h2 := hub2 w hwm
            rw [hzeq]
            rw [← hweq] at h2
            omega
        · have hpm2 : (m == p) = false := by
            rw [Bool.not_eq_true] at hpm; exact hpm
          have hpm' : (p == m) = false := by
            rw [bool_beq_comm]; exact hpm2
          obtain ⟨hatt, hlb⟩ := minmax_fonc_succ_min d p v c cs' m hpm'
          have hloop : alpha_beta (.node p v (c :: cs')) (d+1) alpha beta
              m =
              abMinLoop (fun n a b => alpha_beta n d a b m) alpha
                (c :: cs') beta 127 none := by
            simp only [alpha_beta, Configuration.children,
              Configuration.current_player, hpm2, Bool.false_eq_true,
              ite_false]
          rw [hloop]
          have hf : ∀ ch ∈ c :: cs', ∀ b' : Int, b' ≤ 127 → alpha < b' →
              ((b' ≤ (minmax_fonc ch.2 d m).2 →
                  b' ≤ (alpha_beta ch.2 d alpha b' m).2) ∧
               ((minmax_fonc ch.2 d m).2 ≤ alpha →
                  (alpha_beta ch.2 d alpha b' m).2 ≤ alpha) ∧
               (alpha < (minmax_fonc ch.2 d m).2 →
                  (minmax_fonc ch.2 d m).2 < b' →
                  (alpha_beta ch.2 d alpha b' m).2 =
                    (minmax_fonc ch.2 d m).2)) := by
            intro ch hchm b' hb' hab'
            have hih := ih ch.2 alpha b' m (hch ch hchm) halpha hb' hab'
            exact ⟨hih.2.1, hih.1, hih.2.2⟩
          have hw := abMinLoop_window
            (fun n a b => alpha_beta n d a b m)
            (fun n => (minmax_fonc n d m).2) alpha (c :: cs') beta
            127 none hbeta hab hg hf
          simp only at hw
          refine ⟨?_, ?_, ?_⟩
          · intro hva
            rcases hatt with ⟨w, hwm, hweq⟩
            exact hw.2.2 ⟨w, hwm, by rw [← hweq]; exact hva⟩
          · intro hbv
            have hall : ∀ ch ∈ c :: cs',
                beta ≤ (minmax_fonc ch.2 d m).2 :=
              fun ch h => le_trans hbv (hlb ch h)
            rw [hw.1 hall]
            exact hbeta
          · intro hav hvb
            have halla : ∀ ch ∈ c :: cs',
                alpha < (minmax_fonc ch.2 d m).2 :=
              fun ch h => lt_of_lt_of_le hav (hlb ch h)
            rcases hatt with ⟨w, hwm, hweq⟩
            have hex : ∃ ch ∈ c :: cs',
                (minmax_fonc ch.2 d m).2 < beta :=
              ⟨w, hwm, by rw [← hweq]; exact hvb⟩
            obtain ⟨⟨z, hz, hzeq⟩, hlb2⟩ := hw.2.1 halla hex
            have h1 := hlb z hz
            have h2 := hlb2 w hwm
            rw [hzeq]
            rw [← hweq] at h2
            omega

/-- C3: for every position (with its i8 values in range), depth, and
maximizing-player flag, sequential Alpha-Beta called with the full window
`alpha = i8::MIN, beta = i8::MAX` returns the same score as sequential
Min-Max at the same depth: pruning does not change the computed game
value. -/
theorem C3_alpha_beta_full_window_eq_minmax :
    ∀ (node : Configuration) (d : Nat) (m : Bool),
    InRangeB d node = true →
    (alpha_beta node d (-128) 127 m).2 = (minmax_fonc node d m).2 := by
  intro node d m h
  have hmain := alpha_beta_window_main d node (-128) 127 m h
    (by omega) (by omega) (by omega)
  have hvr := minmax_fonc_range d node m h
  have har := alpha_beta_range d node (-128) 127 m h
  by_cases h1 : (minmax_fonc node d m).2 ≤ -128
  · have h2 := hmain.1 h1
    omega
  · by_cases h3 : (127 : Int) ≤ (minmax_fonc node d m).2
    · have h4 := hmain.2.1 h3
      omega
    · exact hmain.2.2 (by omega) (by omega)

theorem C3_alpha_beta_full_window_eq_minmax_witness :
    (InRangeB 2 (.node true 2
        [(0, .node false 1 [(0, .node true 4 []), (1, .node true (-6) [])]),
         (1, .node false 5 [(0, .node true 3 []), (1, .node true 9 [])])])
      = true) ∧
    (alpha_beta (.node true 2
        [(0, .node false 1 [(0, .node true 4 []), (1, .node true (-6) [])]),
         (1, .node false 5 [(0, .node true 3 []), (1, .node true 9 [])])])
        2 (-128) 127 true).2 =
      (minmax_fonc (.node true 2
        [(0, .node false 1 [(0, .node true 4 []), (1, .node true (-6) [])]),
         (1, .node false 5 [(0, .node true 3 []), (1, .node true 9 [])])])
        2 true).2 :=
  ⟨by decide, C3_alpha_beta_full_window_eq_minmax _ 2 true (by decide)⟩
